import Mathlib

/-!
Verification development for the query core of dxr (`dxr/query.py`).

The Python source is shallowly embedded: each Python function or method that
the properties below talk about is translated into an executable Lean
definition, keeping the source's names, string literals and control flow.
Python dicts of parsed terms are represented as association lists that keep
query order; generator pipelines are represented as list-producing functions.
-/

namespace DxrQuery

/-- A parsed query term: the sub-dictionary stored in `Query.terms`.
Python dict keys: `arg`, `not` (here `negated`), `qualified`,
`case_sensitive`. -/
structure Term where
  arg : String
  negated : Bool
  qualified : Bool
  case_sensitive : Bool
deriving Repr, DecidableEq

/-- Embedding of `Query.terms`: Python keeps a dict from filter kind to the list of terms
of that kind, in query order.  We flatten it to an association list in query
order; `getTerms` plays the role of `terms.get(kind, [])`. -/
abbrev Terms := List (String × Term)

/-- Python `terms.get(name, [])`: all terms of a kind, in query order. -/
def getTerms (terms : Terms) (name : String) : List Term :=
  (terms.filter (fun p => p.1 == name)).map (fun p => p.2)

/-- One pass of Python `str.replace(c, r)` for a single-character needle
(all needles used by `like_escape` are single characters, so replacement is
character-by-character). -/
def replace1 (c : Char) (r : List Char) : List Char → List Char
  | [] => []
  | ch :: s => (if ch = c then r else [ch]) ++ replace1 c r s

/-- Function `like_escape` (query.py): escape for use as argument to LIKE.
`\ → \\`, `_ → \_`, `% → \%`, then `? → _`, `* → %`, applied in this
order exactly as the chained `str.replace` calls in the source. -/
def like_escape (val : String) : String :=
  ⟨replace1 '*' ['%']
    (replace1 '?' ['_']
      (replace1 '%' ['\\', '%']
        (replace1 '_' ['\\', '_']
          (replace1 '\\' ['\\', '\\'] val.data))))⟩

/-- A contribution yielded by a `Query.results`-compatible filter:
the `(fields, condition, arguments)` triple of `SearchFilter.filter`. -/
structure Contribution where
  fields : List String
  cond : String
  args : List String
deriving Repr, DecidableEq

/-- The body of the `text`-terms loop of `TriliteSearchFilter.filter` for one
term: `(yielded contributions, additions to not_conds, additions to
not_args)`.  Terms with an empty `arg` are skipped (`if term['arg']:`). -/
def textStep (t : Term) : List Contribution × List String × List String :=
  if t.arg ≠ "" then
    if t.negated then
      ([], ["trg_index.contents MATCH ?"],
       [(if t.case_sensitive then "substr:" else "isubstr:") ++ t.arg])
    else
      ([⟨[], "trg_index.contents MATCH ?",
          [(if t.case_sensitive then "substr-extents:" else "isubstr-extents:") ++ t.arg]⟩],
       [], [])
  else ([], [], [])

/-- The body of the `re`/`regexp`-terms loop of `TriliteSearchFilter.filter`
for one term. -/
def reStep (t : Term) : List Contribution × List String × List String :=
  if t.arg ≠ "" then
    if t.negated then
      ([], ["trg_index.contents MATCH ?"], ["regexp:" ++ t.arg])
    else
      ([⟨[], "trg_index.contents MATCH ?", ["regexp-extents:" ++ t.arg]⟩], [], [])
  else ([], [], [])

/-- Run one of the term loops of `TriliteSearchFilter.filter` over a term
list, concatenating yielded contributions and the `not_conds` / `not_args`
accumulators in order. -/
def accumSteps (f : Term → List Contribution × List String × List String) :
    List Term → List Contribution × List String × List String
  | [] => ([], [], [])
  | t :: ts =>
    let a := f t
    let b := accumSteps f ts
    (a.1 ++ b.1, a.2.1 ++ b.2.1, a.2.2 ++ b.2.2)

/-- Method `TriliteSearchFilter.filter`: positive `text` terms first, then positive
`re`/`regexp` terms, then — if any negative conditions were collected — a
single grouped `NOT EXISTS` contribution carrying all negative arguments. -/
def trilite_filter (terms : Terms) : List Contribution :=
  let tres := accumSteps textStep (getTerms terms "text")
  let rres := accumSteps reStep (getTerms terms "re" ++ getTerms terms "regexp")
  let not_conds := tres.2.1 ++ rres.2.1
  let not_args := tres.2.2 ++ rres.2.2
  tres.1 ++ rres.1 ++
    (if not_conds.isEmpty then []
     else [⟨[], "NOT EXISTS (SELECT 1 FROM trg_index WHERE trg_index.id=lines.id AND ("
              ++ String.intercalate " OR " not_conds ++ "))",
            not_args⟩])

/-- Python `s.startswith(pre)`. -/
def startswith (s pre : String) : Bool :=
  pre.data.isPrefixOf s.data

/-- The constructor parameters of a `SimpleFilter`. -/
structure SimpleFilterParams where
  param : String
  filter_sql : String
  neg_filter_sql : String
  formatter : String → List String

/-- Method `SimpleFilter.filter`: one contribution per term of the handled kind,
negation switching between the two SQL templates. -/
def simple_filter (f : SimpleFilterParams) (terms : Terms) : List Contribution :=
  (getTerms terms f.param).map (fun t =>
    if t.negated then ⟨[], f.neg_filter_sql, f.formatter t.arg⟩
    else ⟨[], f.filter_sql, f.formatter t.arg⟩)

/-- The registered `path` filter (`filters[0]`). -/
def path_filter : SimpleFilterParams :=
  { param := "path"
    filter_sql := "files.path LIKE ? ESCAPE \"\\\" "
    neg_filter_sql := "files.path NOT LIKE ? ESCAPE \"\\\" "
    formatter := fun arg => ["%" ++ like_escape arg ++ "%"] }

/-- The registered `ext` filter (`filters[1]`): the argument is normalized by
prepending `.` when absent, and the pattern has no trailing `%`. -/
def ext_filter : SimpleFilterParams :=
  { param := "ext"
    filter_sql := "files.path LIKE ? ESCAPE \"\\\" "
    neg_filter_sql := "files.path NOT LIKE ? ESCAPE \"\\\" "
    formatter := fun arg =>
      ["%" ++ like_escape (if startswith arg "." then arg else "." ++ arg)] }

/-- The state built up by the plan-synthesis loop of `Query.results`. -/
structure PlanState where
  fields : List String
  tables : List String
  conditions : List String
  orderings : List String
  arguments : List String
  has_lines : Bool
deriving Repr, DecidableEq

/-- The line-based fields glommed on when the first line-having filter
contributes. -/
def line_fields : List String :=
  ["files.encoding", "files.id as file_id", "lines.id as line_id", "lines.number",
   "trg_index.text", "extents(trg_index.contents)"]

/-- The body of the inner loop of `Query.results` for one contribution of a
filter whose `has_lines` attribute is `f_has_lines`: possibly switch to the
line-joined shape (only on the first line-having contribution), then append
the contribution's fields, condition and arguments. -/
def processContribution (f_has_lines : Bool) (st : PlanState) (c : Contribution) : PlanState :=
  let st' :=
    if !st.has_lines && f_has_lines then
      { st with
        has_lines := true
        fields := st.fields ++ line_fields
        tables := st.tables ++ ["lines", "trg_index"]
        conditions := st.conditions ++ ["files.id=lines.file_id", "lines.id=trg_index.id"]
        orderings := st.orderings ++ ["lines.number"] }
    else st
  { st' with
    fields := st'.fields ++ c.fields
    conditions := st'.conditions ++ [c.cond]
    arguments := st'.arguments ++ c.args }

/-- A filter as seen by the loop of `Query.results`: its `has_lines`
attribute and its `filter` method. -/
structure ResultsFilter where
  has_lines : Bool
  filter : Terms → List Contribution

/-- The filters actually iterated by `Query.results`: the source reads
`for f in [filters[0], filters[2]]: # XXX: filters:`, i.e. only the `path`
filter (`has_lines = False` from `SimpleFilter`) and the trilite text/regexp
filter (`has_lines = True` inherited from `SearchFilter`). -/
def results_filters : List ResultsFilter :=
  [⟨false, simple_filter path_filter⟩, ⟨true, trilite_filter⟩]

/-- The plan state before any filter contributes. -/
def initial_plan : PlanState :=
  { fields := ["files.path", "files.icon"]
    tables := ["files"]
    conditions := []
    orderings := ["files.path"]
    arguments := []
    has_lines := false }

/-- The plan-synthesis loop of `Query.results`. -/
def results_plan (terms : Terms) : PlanState :=
  results_filters.foldl
    (fun st f => (f.filter terms).foldl (processContribution f.has_lines) st)
    initial_plan

/-- Whether at least one filter processed by the `Query.results` loop both
has `has_lines` and yields at least one contribution for the term set. -/
def contributingHasLines (terms : Terms) : Bool :=
  results_filters.any (fun f => f.has_lines && !(f.filter terms).isEmpty)

/-- Python `template % expr` for a template containing a single `%s`
placeholder: replace the first occurrence of `%s`. -/
def substPct : List Char → List Char → List Char
  | [], _ => []
  | '%' :: 's' :: rest, repl => repl ++ rest
  | c :: rest, repl => c :: substPct rest repl

/-- The constructor parameters of an `ExistsLikeFilter`. -/
structure ExistsLikeParams where
  param : String
  filter_sql : String
  ext_sql : Option String
  like_name : String
  qual_name : String
deriving Repr, DecidableEq

/-- Python `self.qual_expr = " %s = ? " % qual_name`. -/
def qual_expr (p : ExistsLikeParams) : String :=
  " " ++ p.qual_name ++ " = ? "

/-- Python `self.like_expr = ''' %s LIKE ? ESCAPE "\\" ''' % like_name` (the doubled
backslash in the Python literal denotes a single backslash character). -/
def like_expr (p : ExistsLikeParams) : String :=
  " " ++ p.like_name ++ " LIKE ? ESCAPE \"\\\" "

/-- A contribution yielded by `ExistsLikeFilter.filter` and
`UnionFilter.filter`: `(condition, bound arguments, has-extents flag)`. -/
abbrev ELContribution := String × List String × Bool

/-- The loop body of `ExistsLikeFilter.filter` for one term: the `%s`
placeholder is filled with `qual_expr` (qualified-name equality) for
qualified terms, else with `like_expr`; the single bound argument is the raw
argument when qualified, else `like_escape(arg)`. -/
def exists_like_one (p : ExistsLikeParams) (t : Term) : ELContribution :=
  let fsql : String := ⟨substPct p.filter_sql.data
    (if t.qualified then qual_expr p else like_expr p).data⟩
  let sql_params := [if t.qualified then t.arg else like_escape t.arg]
  if t.negated then ("NOT EXISTS (" ++ fsql ++ ")", sql_params, false)
  else ("EXISTS (" ++ fsql ++ ")", sql_params, p.ext_sql.isSome)

/-- Method `ExistsLikeFilter.filter`: one contribution per term of the handled
kind. -/
def exists_like_filter (p : ExistsLikeParams) (terms : Terms) : List ELContribution :=
  (getTerms terms p.param).map (exists_like_one p)

/-- The store callback used by the extent retrieval: `execute_sql(sql,
[file_id, escaped_arg])`, curried, yielding `(extent_start, extent_end)`
rows. -/
abbrev ExtQuery := String → Nat → String → List (Nat × Nat)

/-- Method `ExistsLikeFilter.extents`: when `ext_sql` is present, yields a single
hit sequence; per term, rows of the extent query with truthy (nonzero) start
and end.  The constant empty third tuple component of the Python hits is
omitted from the model. -/
def exists_like_extents (p : ExistsLikeParams) (terms : Terms)
    (execute_sql : ExtQuery) (file_id : Nat) : List (List (Nat × Nat)) :=
  match p.ext_sql with
  | none => []
  | some ext_sql =>
    [(getTerms terms p.param).flatMap (fun t =>
      let escaped_arg := if t.qualified then t.arg else like_escape t.arg
      let sql_expr := if t.qualified then qual_expr p else like_expr p
      (execute_sql ⟨substPct ext_sql.data sql_expr.data⟩ file_id escaped_arg).filter
        (fun pr => pr.1 != 0 && pr.2 != 0))]

/-- Python `zip(*lists)`: transpose truncating to the shortest list. -/
def zipStar {α : Type} : List (List α) → List (List α)
  | [] => []
  | [l] => l.map (fun x => [x])
  | l :: l2 :: ls => (l.zip (zipStar (l2 :: ls))).map (fun p => p.1 :: p.2)

/-- Method `UnionFilter.filter`: zip the inner filters' contribution streams; each
zipped group becomes one contribution whose condition is the parenthesized
OR-join of the group's conditions, whose arguments are the group's argument
lists concatenated in inner-filter order, and whose extents flag is the
group's disjunction. -/
def union_filter (inner : List (Terms → List ELContribution)) (terms : Terms) :
    List ELContribution :=
  (zipStar (inner.map (fun f => f terms))).map (fun res =>
    ("(" ++ String.intercalate " OR " (res.map (fun c => c.1)) ++ ")",
     (res.map (fun c => c.2.1)).flatten,
     res.any (fun c => c.2.2)))

/-- Lexicographic comparison on extent pairs, as Python `sorted` orders the
hit tuples. -/
def pairLe (a b : Nat × Nat) : Bool :=
  Nat.blt a.1 b.1 || (a.1 == b.1 && Nat.ble a.2 b.2)

/-- Insert into a `pairLe`-sorted list. -/
def insertSorted (x : Nat × Nat) : List (Nat × Nat) → List (Nat × Nat)
  | [] => [x]
  | y :: ys => if pairLe x y then x :: y :: ys else y :: insertSorted x ys

/-- Python `sorted` on the extent hits (insertion sort; same result). -/
def sortPairs : List (Nat × Nat) → List (Nat × Nat)
  | [] => []
  | x :: xs => insertSorted x (sortPairs xs)

/-- Python `groupby` of a sorted list, keeping each group's key: removes
adjacent duplicates. -/
def dedupAdj : List (Nat × Nat) → List (Nat × Nat)
  | [] => []
  | [x] => [x]
  | x :: y :: ys => if x = y then dedupAdj (y :: ys) else x :: dedupAdj (y :: ys)

/-- Method `UnionFilter.extents`: chain all inner filters' hits, sort, and yield the
deduplicated sequence (the `sorter` generator). -/
def union_extents (inner : List ExistsLikeParams) (terms : Terms)
    (execute_sql : ExtQuery) (file_id : Nat) : List (List (Nat × Nat)) :=
  [dedupAdj (sortPairs
    ((inner.map (fun p => (exists_like_extents p terms execute_sql file_id).flatten)).flatten))]

/-- The registered `function` filter. -/
def function_filter : ExistsLikeParams :=
  { param := "function"
    filter_sql := "SELECT 1 FROM functions\n                           WHERE %s\n                             AND functions.file_id = files.id\n                        "
    ext_sql := some "SELECT functions.extent_start, functions.extent_end FROM functions\n                           WHERE functions.file_id = ?\n                             AND %s\n                           ORDER BY functions.extent_start\n                        "
    like_name := "functions.name"
    qual_name := "functions.qualname" }

/-- The first inner filter of the registered `type` union filter (over the
`types` relation). -/
def type_filter_types : ExistsLikeParams :=
  { param := "type"
    filter_sql := "SELECT 1 FROM types\n                           WHERE %s\n                             AND types.file_id = files.id\n                        "
    ext_sql := some "SELECT types.extent_start, types.extent_end FROM types\n                           WHERE types.file_id = ?\n                             AND %s\n                           ORDER BY types.extent_start\n                        "
    like_name := "types.name"
    qual_name := "types.qualname" }

/-- The second inner filter of the registered `type` union filter (over the
`typedefs` relation). -/
def type_filter_typedefs : ExistsLikeParams :=
  { param := "type"
    filter_sql := "SELECT 1 FROM typedefs\n                           WHERE %s\n                             AND typedefs.file_id = files.id\n                        "
    ext_sql := some "SELECT typedefs.extent_start, typedefs.extent_end FROM typedefs\n                           WHERE typedefs.file_id = ?\n                             AND %s\n                           ORDER BY typedefs.extent_start\n                        "
    like_name := "typedefs.name"
    qual_name := "typedefs.qualname" }

/-- The inner filters of the registered `type` union filter. -/
def type_union : List ExistsLikeParams :=
  [type_filter_types, type_filter_typedefs]

/-- ASCII lowercasing: SQLite's default LIKE folds only `A`–`Z`. -/
def asciiLower (c : Char) : Char :=
  if 'A' ≤ c ∧ c ≤ 'Z' then Char.ofNat (c.toNat + 32) else c

/-- SQLite `LIKE` matching (no ESCAPE clause): `%` matches any run, `_` any
single character, other characters match up to ASCII case. -/
def likeMatch : List Char → List Char → Bool
  | [], s => s.isEmpty
  | '%' :: ps, s => s.tails.any (fun t => likeMatch ps t)
  | '_' :: ps, s =>
    match s with
    | [] => false
    | _ :: cs => likeMatch ps cs
  | p :: ps, s =>
    match s with
    | [] => false
    | c :: cs => (asciiLower p == asciiLower c) && likeMatch ps cs

/-- Whether `pattern` LIKE-matches `s`. -/
def sqlLike (pat s : String) : Bool :=
  likeMatch pat.data s.data

/-- Python `str.split(c)` for a single-character separator (the source splits
on `":"`).  The result is always nonempty. -/
def splitOnChar (c : Char) : List Char → List (List Char)
  | [] => [[]]
  | x :: xs =>
    match splitOnChar c xs with
    | [] => [[]]
    | h :: t => if x = c then [] :: h :: t else (x :: h) :: t

/-- Python `int` on an all-digit string, as guaranteed by the `_line_number`
regex guard before the only call site. -/
def natOfDigits (s : List Char) : Nat :=
  s.foldl (fun n c => n * 10 + (c.toNat - 48)) 0

/-- Check `_line_number.match(term)`: the regex `^.*:[0-9]+$` under Python
semantics — `.` never matches a newline, and `$` matches at the end of the
string or just before one trailing newline.  So the match region is the term
minus at most one trailing newline; it must contain a colon, everything
after its last colon must be a nonempty digit run, and the region (hence the
`.*` part before that colon) must be newline-free. -/
def matches_line_number (term : String) : Bool :=
  let core := if term.data.getLast? = some '\n' then term.data.dropLast else term.data
  let parts := splitOnChar ':' core
  decide (2 ≤ parts.length) && !(parts.getLastD []).isEmpty
    && (parts.getLastD []).all Char.isDigit && !decide ('\n' ∈ core)

/-- Python `int` on the strings reachable behind the regex guard: a digit
run, possibly still carrying the one trailing newline tolerated by the
regex's `$` — `int` strips surrounding whitespace, so the value is that of
the leading digit run. -/
def intOfDigits (s : List Char) : Nat :=
  natOfDigits (s.takeWhile Char.isDigit)

/-- Does `hay` contain `needle` as a contiguous run (Python `needle in hay`)? -/
def containsSub (needle hay : List Char) : Bool :=
  hay.tails.any (fun t => needle.isPrefixOf t)

/-- A row of the `files` relation (only the columns `direct_result`
touches). -/
structure FileRow where
  id : Nat
  path : String
deriving Repr, DecidableEq

/-- A row of the `types` or `functions` relation (only the columns
`direct_result` touches). -/
structure SymRow where
  file_id : Nat
  name : String
  qualname : String
  file_line : Int
deriving Repr, DecidableEq

/-- The store as `direct_result` sees it. -/
structure DB where
  files : List FileRow
  types : List SymRow
  functions : List SymRow
deriving Repr, DecidableEq

/-- The scalar subquery `(SELECT path FROM files WHERE files.id = X.file_id)`:
the first matching path, or SQL NULL (`none`). -/
def filePathOf (db : DB) (fid : Nat) : Option String :=
  (db.files.find? (fun f => f.id == fid)).map (fun f => f.path)

/-- The first lookup of `direct_result`:
`SELECT path FROM files WHERE path = :term OR path LIKE :termPre LIMIT 2`
with `termPre = "%/" + term`. -/
def fileRows (db : DB) (term : String) : List String :=
  ((db.files.filter (fun r => r.path == term || sqlLike ("%/" ++ term) r.path)).map
    (fun r => r.path)).take 2

/-- The repeated lookup shape of `direct_result` over `types`/`functions`:
`SELECT (SELECT path FROM files WHERE files.id = X.file_id) as path,
X.file_line FROM X WHERE <pred> LIMIT 2`. -/
def symRows (db : DB) (rows : List SymRow) (pred : SymRow → Bool) :
    List (Option String × Int) :=
  ((rows.filter pred).map (fun t => (filePathOf db t.file_id, t.file_line))).take 2

/-- Lines 191–196 of `direct_result`: `line_number = -1`, then if the term
matches `^.*:[0-9]+$` and splits on `:` into exactly two parts, the name
part and the parsed line number (the split and `int` run on the full term,
so `int` may still see — and strip — the trailing newline the regex's `$`
tolerated). -/
def split_name_line (term : String) : String × Int :=
  if matches_line_number term then
    let parts := splitOnChar ':' term.data
    if parts.length = 2 then (⟨parts.headD []⟩, (intOfDigits (parts.getLastD []) : Int))
    else (term, -1)
  else (term, -1)

/-- The trailing case-insensitive steps of `direct_result` (types by
`name LIKE ?`, then functions by `name LIKE ?`), reached both when the
qualified-name block runs without a unique hit and when it is skipped. -/
def direct_result_ci (db : DB) (term : String) : Option (Option String × Int) :=
  match symRows db db.types (fun t => sqlLike term t.name) with
  | [r] => some r
  | _ =>
    match symRows db db.functions (fun t => sqlLike term t.name) with
    | [r] => some r
    | _ => none

/-- Method `Query.direct_result` after the single term has been extracted: the
sequential lookups, each returning as soon as exactly one row comes back. -/
def direct_result_from (db : DB) (term₀ : String) : Option (Option String × Int) :=
  let pr := split_name_line term₀
  let term := pr.1
  let line_number := pr.2
  match fileRows db term with
  | [p] => some (some p, if 0 ≤ line_number then line_number else 1)
  | _ =>
    match symRows db db.types (fun t => t.name == term) with
    | [r] => some r
    | _ =>
      match symRows db db.functions (fun t => t.name == term) with
      | [r] => some r
      | _ =>
        if containsSub "::".data term.data then
          match symRows db db.types (fun t => sqlLike term t.qualname) with
          | [r] => some r
          | _ =>
            match symRows db db.functions (fun t => sqlLike (term ++ "%") t.qualname) with
            | [r] => some r
            | _ => direct_result_ci db term
        else direct_result_ci db term

/-- Method `Query.single_term`: the single textual term of the query, when the term
dict has exactly the key `text` holding exactly one term.  On the flattened
association list this is exactly the one-entry `("text", t)` shape. -/
def single_term (terms : Terms) : Option String :=
  match terms with
  | [(k, t)] => if k = "text" then some t.arg else none
  | _ => none

/-- Method `Query.direct_result`: bail out unless there is a single nonempty textual
term (`if not term: return None`), then run the lookups. -/
def direct_result (db : DB) (terms : Terms) : Option (Option String × Int) :=
  match single_term terms with
  | none => none
  | some term => if term = "" then none else direct_result_from db term

/-- First non-`none` element of a list of attempts. -/
def firstSome {α : Type} : List (Option α) → Option α
  | [] => none
  | o :: os =>
    match o with
    | some r => some r
    | none => firstSome os

/-- Modelled from the spec (§4.G): one lookup step of the direct-result
resolver — its (already `LIMIT 2`-truncated) row list produces a value only
when exactly one row came back. -/
def stepOne {α : Type} (l : List α) (F : α → Option String × Int) :
    Option (Option String × Int) :=
  match l with
  | [r] => some (F r)
  | _ => none

/-- Modelled from the spec (§4.G): the ordered lookup steps of the
direct-result resolver — files; case-sensitive types; case-sensitive
functions; when the term contains `::`, qualname lookups; then
case-insensitive types and functions.  Each step takes at most two rows
(`LIMIT 2`) and produces a value only when exactly one row comes back. -/
def direct_result_steps (db : DB) (name : String) (line_number : Int) :
    List (Option (Option String × Int)) :=
  [stepOne (fileRows db name)
     (fun p => (some p, if 0 ≤ line_number then line_number else 1)),
   stepOne (symRows db db.types (fun t => t.name == name)) (fun r => r),
   stepOne (symRows db db.functions (fun t => t.name == name)) (fun r => r)]
  ++ (if containsSub "::".data name.data then
      [stepOne (symRows db db.types (fun t => sqlLike name t.qualname)) (fun r => r),
       stepOne (symRows db db.functions (fun t => sqlLike (name ++ "%") t.qualname))
         (fun r => r)]
      else [])
  ++ [stepOne (symRows db db.types (fun t => sqlLike name t.name)) (fun r => r),
      stepOne (symRows db db.functions (fun t => sqlLike name t.name)) (fun r => r)]

/-- The names of all registered filters, in registration order
(`f.names()` for `f` in `filters`: the trilite filter claims both `text`
and `regexp`, every other filter one kind). -/
def filter_names : List String :=
  ["path", "ext", "text", "regexp", "function", "function-ref", "function-decl",
   "callers", "called-by", "type", "type-ref", "type-decl", "var", "var-ref",
   "var-decl", "macro", "macro-ref", "namespace", "namespace-ref",
   "namespace-alias", "namespace-alias-ref", "bases", "derived", "member",
   "overridden", "overrides", "warning", "warning-opt"]

/-- Insert into a longest-first list, before the first entry of smaller or
equal length (keeps earlier-registered names first among equal lengths). -/
def insertByLen (x : List Char) : List (List Char) → List (List Char)
  | [] => [x]
  | y :: ys => if x.length < y.length then y :: insertByLen x ys else x :: y :: ys

/-- Python `sorted(names, key=len, reverse=True)`: the stable sort of the
registered names by descending length used to build the grammar's filter
alternation. -/
def sortByLenDesc : List (List Char) → List (List Char)
  | [] => []
  | x :: xs => insertByLen x (sortByLenDesc xs)

/-- The filter-name alternation of the generated grammar. -/
def sortedNamesList : List (List Char) :=
  sortByLenDesc (filter_names.map (fun s => s.data))

/-- The `filter` rule: a regex alternation tries the names in order, so the
first name in the longest-first list that prefixes the input matches. -/
def matchFilterName : List (List Char) → List Char → Option (List Char × List Char)
  | [], _ => none
  | n :: ns, cs =>
    if n.isPrefixOf cs then some (n, cs.drop n.length) else matchFilterName ns cs

/-- The partially built term sub-dictionary during parsing: `visit_text`
creates `{'arg': …}`, later visits may set the `not`/`qualified` bits, and
`visit_term` fills defaults (`setdefault`). -/
structure SubDict where
  arg : String
  negated : Option Bool
  qualified : Option Bool
deriving Repr, DecidableEq

/-- The `_` rule: `[ \t]*`. -/
def wsDrop (cs : List Char) : List Char :=
  cs.dropWhile (fun c => c == ' ' || c == '\t')

/-- The `bare_text` rule: `[^ ]+` (greedy, so the whole run of non-space
characters). -/
def bareText (cs : List Char) : Option (List Char × List Char) :=
  let run := cs.takeWhile (fun c => c != ' ')
  if run.isEmpty then none else some (run, cs.dropWhile (fun c => c != ' '))

/-- The content-and-terminator scan of the quoted-text regexes, after the
opening quote `q`: content may contain any character, a backslash-escaped
quote, or a quote followed by a non-space; it ends at a quote followed by a
space (quote consumed, space kept), a quote at end of input (consumed), or
the end of input.  Returns `(raw content, rest)`. -/
def quotedTail (q : Char) : List Char → List Char × List Char
  | [] => ([], [])
  | [c] =>
    if c = q then ([], [])
    else ([c], [])
  | c :: c2 :: rest =>
    if c = q then
      if c2 = ' ' then ([], c2 :: rest)
      else
        let pr := quotedTail q rest
        (c :: c2 :: pr.1, pr.2)
    else if c = '\\' && c2 = q then
      let pr := quotedTail q rest
      (c :: c2 :: pr.1, pr.2)
    else
      let pr := quotedTail q (c2 :: rest)
      (c :: pr.1, pr.2)

/-- The `double_quoted_text` / `single_quoted_text` rule for quote character
`q`: requires the opening quote, then scans content. -/
def quotedText (q : Char) (cs : List Char) : Option (List Char × List Char) :=
  match cs with
  | c :: rest => if c = q then some (quotedTail q rest) else none
  | [] => none

/-- Visitors `visit_double_quoted_text` / `visit_single_quoted_text`: replace the
backslash-escaped quote by a literal quote (Python `str.replace`,
left-to-right, non-overlapping). -/
def unescapeQuote (q : Char) : List Char → List Char
  | [] => []
  | '\\' :: c :: rest =>
    if c = q then c :: unescapeQuote q rest
    else '\\' :: unescapeQuote q (c :: rest)
  | c :: rest => c :: unescapeQuote q rest

/-- The `text` rule: ordered choice of double-quoted, single-quoted and bare
text, followed by `_`; yields the argument string after quote unescaping. -/
def textRule (cs : List Char) : Option (String × List Char) :=
  match quotedText '"' cs with
  | some (content, rest) => some (⟨unescapeQuote '"' content⟩, wsDrop rest)
  | none =>
    match quotedText '\'' cs with
    | some (content, rest) => some (⟨unescapeQuote '\'' content⟩, wsDrop rest)
    | none =>
      match bareText cs with
      | some (run, rest) => some (⟨run⟩, wsDrop rest)
      | none => none

/-- The `maybe_plus` rule (`"+"?`) with `visit_maybe_plus`: whether a `+`
was present, and the remaining input. -/
def maybePlus (cs : List Char) : Bool × List Char :=
  match cs with
  | c :: rest => if c = '+' then (true, rest) else (false, cs)
  | [] => (false, cs)

/-- The `filtered_term` rule (`maybe_plus filter ":" text`) combined with
`visit_filtered_term`: the `qualified` bit records whether the optional `+`
was present. -/
def filteredTerm (cs : List Char) : Option ((String × SubDict) × List Char) :=
  match matchFilterName sortedNamesList (maybePlus cs).2 with
  | none => none
  | some (n, rest1) =>
    match rest1 with
    | ':' :: rest2 =>
      match textRule rest2 with
      | some (arg, rest3) => some ((⟨n⟩, ⟨arg, none, some (maybePlus cs).1⟩), rest3)
      | none => none
    | _ => none

/-- The `positive_term` rule: a filtered term, else free text of kind
`text` (`visit_text`). -/
def positiveTerm (cs : List Char) : Option ((String × SubDict) × List Char) :=
  match filteredTerm cs with
  | some r => some r
  | none =>
    match textRule cs with
    | some (arg, rest) => some (("text", ⟨arg, none, none⟩), rest)
    | none => none

/-- The `not_term` rule (`"-" positive_term`) with `visit_not_term`: sets the
`not` bit. -/
def notTerm (cs : List Char) : Option ((String × SubDict) × List Char) :=
  match cs with
  | '-' :: rest =>
    match positiveTerm rest with
    | some ((n, sd), rest2) => some ((n, { sd with negated := some true }), rest2)
    | none => none
  | _ => none

/-- The `term` rule (`not_term / positive_term`) with `visit_term`: set
`case_sensitive` from the query-wide flag and default the `not` and
`qualified` bits. -/
def termRule (flag : Bool) (cs : List Char) : Option ((String × Term) × List Char) :=
  match (match notTerm cs with
         | some r => some r
         | none => positiveTerm cs) with
  | some ((n, sd), rest) =>
    some ((n, { arg := sd.arg
                negated := sd.negated.getD false
                qualified := sd.qualified.getD false
                case_sensitive := flag }), rest)
  | none => none

/-- The `term*` loop.  Fuel only bounds the number of iterations; since
every successful term consumes at least one character, fuel
`input length + 1` never runs out before the loop's natural end. -/
def termsLoop (flag : Bool) : Nat → List Char → List (String × Term) × List Char
  | 0, cs => ([], cs)
  | fuel + 1, cs =>
    match termRule flag cs with
    | some (t, rest) =>
      let pr := termsLoop flag fuel rest
      (t :: pr.1, pr.2)
    | none => ([], cs)

/-- Composition `query_grammar.parse` + `QueryVisitor.visit`: `query = _ term*`, the
whole input must be consumed, and `visit_query` groups the terms by kind —
represented here by the order-preserving flat association list. -/
def query_grammar_parse (flag : Bool) (querystr : String) : Option Terms :=
  let cs := wsDrop querystr.data
  let pr := termsLoop flag (cs.length + 1) cs
  if pr.2.isEmpty then some pr.1 else none

/-- Modelled from the spec (§4.C): the scheme-tagged bound argument of a
positive plain-text term (`substr-extents:` or `isubstr-extents:` by case
choice). -/
def posTextArg (t : Term) : String :=
  (if t.case_sensitive then "substr-extents:" else "isubstr-extents:") ++ t.arg

/-- Modelled from the spec (§4.C): the scheme-tagged bound argument of a
negated plain-text term (`substr:` or `isubstr:` by case choice). -/
def negTextArg (t : Term) : String :=
  (if t.case_sensitive then "substr:" else "isubstr:") ++ t.arg

/-- Modelled from the spec (§4.C): the description of the text/regexp
filter's output — one `MATCH` predicate per positive nonempty term with an
`-extents` scheme-tagged argument, then all negated nonempty terms grouped
into a single `NOT EXISTS (… OR …)` predicate whose arguments carry the
non-extents schemes. -/
def trilite_description (terms : Terms) : List Contribution :=
  let textTerms := getTerms terms "text"
  let reTerms := getTerms terms "re" ++ getTerms terms "regexp"
  let posText := (textTerms.filter (fun t => !(t.arg == "") && !t.negated)).map
    (fun t => (⟨[], "trg_index.contents MATCH ?", [posTextArg t]⟩ : Contribution))
  let posRe := (reTerms.filter (fun t => !(t.arg == "") && !t.negated)).map
    (fun t => (⟨[], "trg_index.contents MATCH ?", ["regexp-extents:" ++ t.arg]⟩ : Contribution))
  let negText := textTerms.filter (fun t => !(t.arg == "") && t.negated)
  let negRe := reTerms.filter (fun t => !(t.arg == "") && t.negated)
  let negConds := negText.map (fun _ => "trg_index.contents MATCH ?")
    ++ negRe.map (fun _ => "trg_index.contents MATCH ?")
  let negArgs := negText.map negTextArg ++ negRe.map (fun t => "regexp:" ++ t.arg)
  posText ++ posRe ++
    (if negConds.isEmpty then []
     else [⟨[], "NOT EXISTS (SELECT 1 FROM trg_index WHERE trg_index.id=lines.id AND ("
              ++ String.intercalate " OR " negConds ++ "))", negArgs⟩])

/-- The term set with the empty-argument text/regexp terms removed. -/
def dropEmptyTextTerms (terms : Terms) : Terms :=
  terms.filter (fun p =>
    !((p.1 == "text" || p.1 == "re" || p.1 == "regexp") && p.2.arg == ""))

/-- Boolean check that a name list is sorted by descending length (the shape
produced by `sortByLenDesc`). -/
def isSortedDescBool : List (List Char) → Bool
  | [] => true
  | [_] => true
  | x :: y :: ys => Nat.ble y.length x.length && isSortedDescBool (y :: ys)

/-- The contributions yielded by the `text` loop are exactly one `MATCH`
predicate per positive nonempty term. -/
theorem accumSteps_textStep_yields (ts : List Term) :
    (accumSteps textStep ts).1 =
      (ts.filter (fun t => !(t.arg == "") && !t.negated)).map
        (fun t => (⟨[], "trg_index.contents MATCH ?", [posTextArg t]⟩ : Contribution)) := by
  induction ts with
  | nil => rfl
  | cons t ts ih =>
    by_cases h1 : t.arg = "" <;> by_cases h2 : t.negated <;>
      simp [accumSteps, textStep, posTextArg, h1, h2, ih]

/-- The `text` loop adds one `not_conds` entry per negated nonempty term. -/
theorem accumSteps_textStep_conds (ts : List Term) :
    (accumSteps textStep ts).2.1 =
      (ts.filter (fun t => !(t.arg == "") && t.negated)).map
        (fun _ => "trg_index.contents MATCH ?") := by
  induction ts with
  | nil => rfl
  | cons t ts ih =>
    by_cases h1 : t.arg = "" <;> by_cases h2 : t.negated <;>
      simp [accumSteps, textStep, h1, h2, ih]

/-- The `text` loop adds one scheme-tagged `not_args` entry per negated
nonempty term. -/
theorem accumSteps_textStep_args (ts : List Term) :
    (accumSteps textStep ts).2.2 =
      (ts.filter (fun t => !(t.arg == "") && t.negated)).map negTextArg := by
  induction ts with
  | nil => rfl
  | cons t ts ih =>
    by_cases h1 : t.arg = "" <;> by_cases h2 : t.negated <;>
      simp [accumSteps, textStep, negTextArg, h1, h2, ih]

/-- The contributions yielded by the `re`/`regexp` loop are exactly one
`MATCH` predicate per positive nonempty term. -/
theorem accumSteps_reStep_yields (ts : List Term) :
    (accumSteps reStep ts).1 =
      (ts.filter (fun t => !(t.arg == "") && !t.negated)).map
        (fun t => (⟨[], "trg_index.contents MATCH ?", ["regexp-extents:" ++ t.arg]⟩ : Contribution)) := by
  induction ts with
  | nil => rfl
  | cons t ts ih =>
    by_cases h1 : t.arg = "" <;> by_cases h2 : t.negated <;>
      simp [accumSteps, reStep, h1, h2, ih]

/-- The `re`/`regexp` loop adds one `not_conds` entry per negated nonempty
term. -/
theorem accumSteps_reStep_conds (ts : List Term) :
    (accumSteps reStep ts).2.1 =
      (ts.filter (fun t => !(t.arg == "") && t.negated)).map
        (fun _ => "trg_index.contents MATCH ?") := by
  induction ts with
  | nil => rfl
  | cons t ts ih =>
    by_cases h1 : t.arg = "" <;> by_cases h2 : t.negated <;>
      simp [accumSteps, reStep, h1, h2, ih]

/-- The `re`/`regexp` loop adds one `regexp:`-tagged `not_args` entry per
negated nonempty term. -/
theorem accumSteps_reStep_args (ts : List Term) :
    (accumSteps reStep ts).2.2 =
      (ts.filter (fun t => !(t.arg == "") && t.negated)).map
        (fun t => "regexp:" ++ t.arg) := by
  induction ts with
  | nil => rfl
  | cons t ts ih =>
    by_cases h1 : t.arg = "" <;> by_cases h2 : t.negated <;>
      simp [accumSteps, reStep, h1, h2, ih]

/-- C4.  For every term set, the text/regexp filter yields, for each positive
text or regexp term, one predicate `trg_index.contents MATCH ?` bound to the
argument prefixed with `substr-extents:`/`isubstr-extents:` (by the term's
case sensitivity) for text, or `regexp-extents:` for regexp; and it collects
all negated text and regexp terms into a single predicate
`NOT EXISTS (SELECT … WHERE trg_index.id=lines.id AND (c1 OR c2 OR …))`
whose bound arguments use the non-extents prefixes `substr:`, `isubstr:`,
`regexp:`. -/
theorem claim_C4_trilite_matches_description (terms : Terms) :
    trilite_filter terms = trilite_description terms := by
  simp only [trilite_filter, trilite_description,
    accumSteps_textStep_yields, accumSteps_textStep_conds, accumSteps_textStep_args,
    accumSteps_reStep_yields, accumSteps_reStep_conds, accumSteps_reStep_args]

/-- Restricting a term list to nonempty-argument terms does not change the
`text` loop's output (empty arguments are skipped by the loop itself). -/
theorem accumSteps_textStep_skipEmpty (ts : List Term) :
    accumSteps textStep (ts.filter (fun t => !(t.arg == ""))) =
      accumSteps textStep ts := by
  induction ts with
  | nil => rfl
  | cons t ts ih =>
    by_cases ha : t.arg = "" <;> simp [accumSteps, textStep, ha, ih]

/-- Restricting a term list to nonempty-argument terms does not change the
`re`/`regexp` loop's output. -/
theorem accumSteps_reStep_skipEmpty (ts : List Term) :
    accumSteps reStep (ts.filter (fun t => !(t.arg == ""))) =
      accumSteps reStep ts := by
  induction ts with
  | nil => rfl
  | cons t ts ih =>
    by_cases ha : t.arg = "" <;> simp [accumSteps, reStep, ha, ih]

/-- Dropping empty-argument text/regexp terms from the term set turns
`getTerms` for those kinds into a nonempty-argument restriction. -/
theorem getTerms_dropEmpty (terms : Terms) (name : String)
    (h : name = "text" ∨ name = "re" ∨ name = "regexp") :
    getTerms (dropEmptyTextTerms terms) name =
      (getTerms terms name).filter (fun t => !(t.arg == "")) := by
  induction terms with
  | nil => rfl
  | cons p ps ih =>
    obtain ⟨k, t⟩ := p
    rcases h with h | h | h <;> subst h <;>
      by_cases hk1 : k = "text" <;> by_cases hk2 : k = "re" <;>
        by_cases hk3 : k = "regexp" <;> by_cases ha : t.arg = "" <;>
          simp_all [dropEmptyTextTerms, getTerms]

/-- C10.  For every term of kind text or regexp whose argument is the empty
string, the text/regexp filter contributes nothing: removing all such terms
from the term set leaves the filter's entire output — positive `MATCH`
predicates, bound arguments and the grouped negative `NOT EXISTS`
predicate — unchanged. -/
theorem claim_C10_empty_text_terms_contribute_nothing (terms : Terms) :
    trilite_filter terms = trilite_filter (dropEmptyTextTerms terms) := by
  have h1 := getTerms_dropEmpty terms "text" (Or.inl rfl)
  have h2 := getTerms_dropEmpty terms "re" (Or.inr (Or.inl rfl))
  have h3 := getTerms_dropEmpty terms "regexp" (Or.inr (Or.inr rfl))
  simp only [trilite_filter, h1, h2, h3, ← List.filter_append,
    accumSteps_textStep_skipEmpty, accumSteps_reStep_skipEmpty]

/-- C1.  The claim says plan synthesis calls `filter()` on every filter in
the registered catalog; the code (`for f in [filters[0], filters[2]]`,
comment `XXX: filters:`) skips everything but the path and trilite filters.
Evaluated at a term set with one `ext` term: the registered `ext` filter
would contribute a predicate, yet the synthesized plan carries no condition
and no bound argument at all. -/
theorem claim_C1_ext_filter_skipped :
    "ext" ∈ filter_names ∧
    simple_filter ext_filter [("ext", ⟨"cpp", false, false, true⟩)] ≠ [] ∧
    (results_plan [("ext", ⟨"cpp", false, false, true⟩)]).conditions = [] ∧
    (results_plan [("ext", ⟨"cpp", false, false, true⟩)]).arguments = [] := by
  refine ⟨by decide, by decide, by decide, by decide⟩

/-- C2.  The claim says the non-qualified name match binds the argument
wrapped as `%arg%` after wildcard substitution and escaping; the code binds
`like_escape(arg)` without the `%…%` wrapping (contradicting the class's own
docstring `like_name LIKE %?%`).  Evaluated at the term `function:f`: the
bound argument list is `["f"]`, not `["%f%"]`. -/
theorem claim_C2_like_argument_not_wrapped :
    (exists_like_filter function_filter
        [("function", ⟨"f", false, false, false⟩)]).map (fun c => c.2.1) =
      [[like_escape "f"]] ∧
    like_escape "f" = "f" ∧
    (["f"] : List String) ≠ ["%f%"] := by
  refine ⟨by decide, by decide, by decide⟩

/-- C8.  The ext filter normalizes its argument by prepending `.` when
absent and binds the pattern `%.ext`, so `ext:cpp` and `ext:.cpp` produce
identical predicates and identical bound arguments. -/
theorem claim_C8_ext_normalizes_dot (a : String) (neg q c : Bool)
    (h : startswith a "." = false) :
    simple_filter ext_filter [("ext", ⟨a, neg, q, c⟩)] =
      simple_filter ext_filter [("ext", ⟨"." ++ a, neg, q, c⟩)] ∧
    ext_filter.formatter a = ["%" ++ like_escape ("." ++ a)] := by
  have hdot : startswith ("." ++ a) "." = true := by
    simp [startswith, String.data_append, List.isPrefixOf]
  constructor
  · simp [simple_filter, ext_filter, getTerms, h, hdot]
  · simp [ext_filter, h]

/-- Every contribution of a `SimpleFilter` selects no extra fields. -/
theorem simple_filter_fields (f : SimpleFilterParams) (ts : Terms) :
    ∀ c ∈ simple_filter f ts, c.fields = [] := by
  intro c hc
  simp only [simple_filter, List.mem_map] at hc
  obtain ⟨t, _, rfl⟩ := hc
  split <;> rfl

/-- Every contribution of the trilite filter selects no extra fields. -/
theorem trilite_filter_fields (ts : Terms) :
    ∀ c ∈ trilite_filter ts, c.fields = [] := by
  intro c hc
  simp only [trilite_filter, List.mem_append] at hc
  rcases hc with (hc | hc) | hc
  · rw [accumSteps_textStep_yields] at hc
    simp only [List.mem_map] at hc
    obtain ⟨t, _, rfl⟩ := hc
    rfl
  · rw [accumSteps_reStep_yields] at hc
    simp only [List.mem_map] at hc
    obtain ⟨t, _, rfl⟩ := hc
    rfl
  · split at hc
    · simp at hc
    · simp only [List.mem_singleton] at hc
      rw [hc]

/-- The flattened fields of a contribution list are empty when every
contribution has empty fields. -/
theorem flatten_fields_nil {cs : List Contribution} (h : ∀ c ∈ cs, c.fields = []) :
    (cs.map Contribution.fields).flatten = [] := by
  induction cs with
  | nil => rfl
  | cons c cs ih =>
    simp [h c (by simp), ih (fun c hc => h c (by simp [hc]))]

/-- Folding contributions of a non-line filter only appends fields,
conditions and arguments; tables, orderings and the `has_lines` flag are
untouched. -/
theorem foldl_pc_false (cs : List Contribution) :
    ∀ st : PlanState,
      cs.foldl (processContribution false) st =
        { st with
          fields := st.fields ++ (cs.map Contribution.fields).flatten
          conditions := st.conditions ++ cs.map Contribution.cond
          arguments := st.arguments ++ (cs.map Contribution.args).flatten } := by
  induction cs with
  | nil => intro st; simp
  | cons c cs ih =>
    intro st
    rw [List.foldl_cons, ih]
    simp [processContribution, List.append_assoc]

/-- Folding contributions of a line-having filter when the plan is already
line-joined: only fields, conditions and arguments are appended. -/
theorem foldl_pc_true_active (cs : List Contribution) :
    ∀ st : PlanState, st.has_lines = true →
      cs.foldl (processContribution true) st =
        { st with
          fields := st.fields ++ (cs.map Contribution.fields).flatten
          conditions := st.conditions ++ cs.map Contribution.cond
          arguments := st.arguments ++ (cs.map Contribution.args).flatten } := by
  induction cs with
  | nil => intro st _; simp
  | cons c cs ih =>
    intro st h
    rw [List.foldl_cons, ih _ (by simp [processContribution, h])]
    simp [processContribution, h, List.append_assoc]

/-- C3.  The synthesized plan joins the lines and trigram relations iff at
least one contributing filter has `has_lines`; the transition happens at
most once — the tables, orderings and fields decompose exactly as the base
plus a single optional line-join block — and when no active filter has
`has_lines` the plan names only the files relation and selects only path
and icon. -/
theorem claim_C3_line_join_shape (terms : Terms) :
    (results_plan terms).tables =
      ["files"] ++ (if contributingHasLines terms then ["lines", "trg_index"] else []) ∧
    (results_plan terms).orderings =
      ["files.path"] ++ (if contributingHasLines terms then ["lines.number"] else []) ∧
    (results_plan terms).fields =
      ["files.path", "files.icon"] ++ (if contributingHasLines terms then line_fields else []) ∧
    (("lines" ∈ (results_plan terms).tables ∧ "trg_index" ∈ (results_plan terms).tables)
      ↔ contributingHasLines terms = true) ∧
    (contributingHasLines terms = false →
      (results_plan terms).tables = ["files"] ∧
      (results_plan terms).fields = ["files.path", "files.icon"]) := by
  have hplan : results_plan terms =
      (trilite_filter terms).foldl (processContribution true)
        ((simple_filter path_filter terms).foldl (processContribution false) initial_plan) := by
    simp [results_plan, results_filters]
  rw [foldl_pc_false, flatten_fields_nil (simple_filter_fields path_filter terms)] at hplan
  rcases htl : trilite_filter terms with _ | ⟨c, cs⟩
  · have hact : contributingHasLines terms = false := by
      simp [contributingHasLines, results_filters, htl]
    rw [htl] at hplan
    rw [hplan]
    simp [hact, initial_plan]
  · have hact : contributingHasLines terms = true := by
      simp [contributingHasLines, results_filters, htl]
    have hcf : c.fields = [] :=
      trilite_filter_fields terms c (by rw [htl]; exact List.mem_cons_self c cs)
    have hcsf : (cs.map Contribution.fields).flatten = [] :=
      flatten_fields_nil (fun d hd =>
        trilite_filter_fields terms d (by rw [htl]; exact List.mem_cons_of_mem c hd))
    rw [htl] at hplan
    rw [List.foldl_cons] at hplan
    have hstep :
        processContribution true
          ({ initial_plan with
             fields := initial_plan.fields ++ [], conditions := initial_plan.conditions ++ (simple_filter path_filter terms).map Contribution.cond,
             arguments := initial_plan.arguments ++ ((simple_filter path_filter terms).map Contribution.args).flatten }) c =
        { fields := (["files.path", "files.icon"] ++ line_fields) ++ c.fields
          tables := ["files", "lines", "trg_index"]
          conditions := (([] ++ (simple_filter path_filter terms).map Contribution.cond)
            ++ ["files.id=lines.file_id", "lines.id=trg_index.id"]) ++ [c.cond]
          orderings := ["files.path", "lines.number"]
          arguments := ([] ++ ((simple_filter path_filter terms).map Contribution.args).flatten) ++ c.args
          has_lines := true } := by
      simp [processContribution, initial_plan]
    rw [hstep] at hplan
    rw [foldl_pc_true_active _ _ rfl] at hplan
    rw [hplan]
    simp [hact, hcf, hcsf]

/-- Witness for C3: a single positive text term activates the line join and
produces the line-joined table list. -/
theorem claim_C3_witness :
    contributingHasLines [("text", ⟨"a", false, false, true⟩)] = true ∧
    (results_plan [("text", ⟨"a", false, false, true⟩)]).tables =
      ["files"] ++ ["lines", "trg_index"] := by
  refine ⟨by decide, ?_⟩
  have h := (claim_C3_line_join_shape [("text", ⟨"a", false, false, true⟩)]).1
  rw [h]
  decide

/-- Python `zip(*…)` of streams that are all maps over one common list is the map
of the per-element groups. -/
theorem zipStar_map_common {α β γ : Type} (g : α → γ → β) :
    ∀ (ps : List α), ps ≠ [] → ∀ (l : List γ),
      zipStar (ps.map (fun p => l.map (g p))) =
        l.map (fun t => ps.map (fun p => g p t)) := by
  intro ps
  induction ps with
  | nil => intro h; exact absurd rfl h
  | cons p ps ih =>
    intro _ l
    cases ps with
    | nil => simp [zipStar, List.map_map]
    | cons q qs =>
      have hih := ih (by simp) l
      simp only [List.map_cons] at hih ⊢
      rw [zipStar, hih, List.zip_map', List.map_map]
      rfl

/-- Pushing `any` through `map`. -/
theorem anyMapEq {α β : Type} (l : List α) (f : α → β) (p : β → Bool) :
    (l.map f).any p = l.any (fun a => p (f a)) := by
  induction l <;> simp_all

/-- Characterization of `pairLe` in terms of the lexicographic order on pairs. -/
theorem pairLe_iff (a b : Nat × Nat) :
    pairLe a b = true ↔ a.1 < b.1 ∨ (a.1 = b.1 ∧ a.2 ≤ b.2) := by
  simp [pairLe, Nat.blt_eq, Nat.ble_eq]

/-- Totality of `pairLe`. -/
theorem pairLe_total (a b : Nat × Nat) : pairLe a b = true ∨ pairLe b a = true := by
  rw [pairLe_iff, pairLe_iff]
  omega

/-- Transitivity of `pairLe`. -/
theorem pairLe_trans {a b c : Nat × Nat} (h1 : pairLe a b = true)
    (h2 : pairLe b c = true) : pairLe a c = true := by
  rw [pairLe_iff] at h1 h2 ⊢
  omega

/-- Antisymmetry of `pairLe`. -/
theorem pairLe_antisymm {a b : Nat × Nat} (h1 : pairLe a b = true)
    (h2 : pairLe b a = true) : a = b := by
  rw [pairLe_iff] at h1 h2
  have : a.1 = b.1 ∧ a.2 = b.2 := by omega
  exact Prod.ext this.1 this.2

/-- Membership through `insertSorted`. -/
theorem mem_insertSorted (x a : Nat × Nat) :
    ∀ l, a ∈ insertSorted x l ↔ a = x ∨ a ∈ l := by
  intro l
  induction l with
  | nil => simp [insertSorted]
  | cons y ys ih =>
    simp only [insertSorted]
    split
    · simp [ih]
    · simp [ih]
      tauto

/-- Membership through `sortPairs`. -/
theorem mem_sortPairs (a : Nat × Nat) : ∀ l, a ∈ sortPairs l ↔ a ∈ l := by
  intro l
  induction l with
  | nil => simp [sortPairs]
  | cons x xs ih => simp [sortPairs, mem_insertSorted, ih]

/-- Insertion by `insertSorted` preserves sortedness. -/
theorem pairwise_insertSorted (x : Nat × Nat) :
    ∀ l, l.Pairwise (fun a b => pairLe a b = true) →
      (insertSorted x l).Pairwise (fun a b => pairLe a b = true) := by
  intro l
  induction l with
  | nil => intro _; simp [insertSorted]
  | cons y ys ih =>
    intro h
    rw [List.pairwise_cons] at h
    simp only [insertSorted]
    split
    · rename_i hxy
      rw [List.pairwise_cons]
      refine ⟨?_, by rw [List.pairwise_cons]; exact h⟩
      intro z hz
      rcases List.mem_cons.mp hz with rfl | hz
      · exact hxy
      · exact pairLe_trans hxy (h.1 z hz)
    · rename_i hxy
      have hyx : pairLe y x = true := by
        rcases pairLe_total x y with h' | h'
        · exact absurd h' hxy
        · exact h'
      rw [List.pairwise_cons]
      refine ⟨?_, ih h.2⟩
      intro z hz
      rcases (mem_insertSorted x z ys).mp hz with rfl | hz
      · exact hyx
      · exact h.1 z hz

/-- Sorting by `sortPairs` yields a sorted list. -/
theorem pairwise_sortPairs :
    ∀ l, (sortPairs l).Pairwise (fun a b => pairLe a b = true) := by
  intro l
  induction l with
  | nil => simp [sortPairs]
  | cons x xs ih => exact pairwise_insertSorted x _ ih

/-- Membership through `dedupAdj`. -/
theorem mem_dedupAdj (a : Nat × Nat) : ∀ l, a ∈ dedupAdj l ↔ a ∈ l := by
  intro l
  induction l with
  | nil => simp [dedupAdj]
  | cons x xs ih =>
    cases xs with
    | nil => simp [dedupAdj]
    | cons y ys =>
      by_cases hxy : x = y
      · subst hxy
        have hd : dedupAdj (x :: x :: ys) = dedupAdj (x :: ys) := by
          simp [dedupAdj]
        rw [hd, ih]
        simp only [List.mem_cons]
        tauto
      · simp only [dedupAdj, if_neg hxy, List.mem_cons, ih, List.mem_cons]

/-- On a sorted list, `dedupAdj` produces a strictly increasing list. -/
theorem dedupAdj_pairwise_strict :
    ∀ l : List (Nat × Nat), l.Pairwise (fun a b => pairLe a b = true) →
      (dedupAdj l).Pairwise (fun a b => pairLe a b = true ∧ a ≠ b) := by
  intro l
  induction l with
  | nil => intro _; simp [dedupAdj]
  | cons x xs ih =>
    intro h
    cases xs with
    | nil => simp [dedupAdj]
    | cons y ys =>
      by_cases hxy : x = y
      · subst hxy
        simp only [dedupAdj, if_pos rfl]
        exact ih h.of_cons
      · simp only [dedupAdj, if_neg hxy]
        rw [List.pairwise_cons]
        refine ⟨?_, ih h.of_cons⟩
        intro z hz
        have hzmem : z ∈ y :: ys := (mem_dedupAdj z (y :: ys)).mp hz
        have hxz : pairLe x z = true := List.rel_of_pairwise_cons h hzmem
        refine ⟨hxz, ?_⟩
        intro heq
        rcases List.mem_cons.mp hzmem with rfl | hzys
        · exact hxy heq
        · have hyz : pairLe y z = true := List.rel_of_pairwise_cons h.of_cons hzys
          have hxy' : pairLe x y = true := List.rel_of_pairwise_cons h (by simp)
          have : x = y := pairLe_antisymm hxy' (heq ▸ hyz)
          exact hxy this

/-- C5 (amended).  A union filter yields one contribution per term of its
kind: the i-th contribution OR-joins the inner filters' i-th predicates in
parentheses, concatenates the inner bound arguments in inner-filter order,
and disjoins the extents flags; and `extents()` yields a single hit sequence
that is sorted, duplicate-free, and contains exactly the union of the inner
filters' extent hits. -/
theorem claim_C5_union_per_term (k : String) (inner : List ExistsLikeParams)
    (hne : inner ≠ []) (hparam : ∀ p ∈ inner, p.param = k) (terms : Terms) :
    union_filter (inner.map exists_like_filter) terms =
      (getTerms terms k).map (fun t =>
        ("(" ++ String.intercalate " OR "
            (inner.map (fun p => (exists_like_one p t).1)) ++ ")",
         (inner.map (fun p => (exists_like_one p t).2.1)).flatten,
         inner.any (fun p => (exists_like_one p t).2.2))) ∧
    (∀ (execute_sql : ExtQuery) (file_id : Nat),
      ∃ S, union_extents inner terms execute_sql file_id = [S] ∧
        S.Nodup ∧
        S.Pairwise (fun a b => pairLe a b = true) ∧
        (∀ x, x ∈ S ↔
          ∃ p ∈ inner, x ∈ (exists_like_extents p terms execute_sql file_id).flatten)) := by
  constructor
  · have hmaps : inner.map (fun p => exists_like_filter p terms) =
        inner.map (fun p => (getTerms terms k).map (exists_like_one p)) := by
      apply List.map_congr_left
      intro p hp
      rw [exists_like_filter, hparam p hp]
    calc union_filter (inner.map exists_like_filter) terms
        = (zipStar (inner.map (fun p => (getTerms terms k).map (exists_like_one p)))).map
            (fun res =>
              ("(" ++ String.intercalate " OR " (res.map (fun c => c.1)) ++ ")",
               (res.map (fun c => c.2.1)).flatten,
               res.any (fun c => c.2.2))) := by
          rw [union_filter, List.map_map]
          congr 1
          rw [← hmaps]
          rfl
      _ = _ := by
          rw [zipStar_map_common (exists_like_one) inner hne (getTerms terms k),
            List.map_map]
          apply List.map_congr_left
          intro t _
          simp [List.map_map, anyMapEq, Function.comp_def]
  · intro execute_sql file_id
    refine ⟨_, rfl, ?_, ?_, ?_⟩
    · have h := dedupAdj_pairwise_strict _ (pairwise_sortPairs
        ((inner.map (fun p =>
          (exists_like_extents p terms execute_sql file_id).flatten)).flatten))
      exact h.imp (fun hab => hab.2)
    · have h := dedupAdj_pairwise_strict _ (pairwise_sortPairs
        ((inner.map (fun p =>
          (exists_like_extents p terms execute_sql file_id).flatten)).flatten))
      exact h.imp (fun hab => hab.1)
    · intro x
      rw [mem_dedupAdj, mem_sortPairs]
      simp [List.mem_flatten]

/-- Counterexample for C5 as stated: with two `type` terms, the registered
`type` union filter yields two contributions, not a single one. -/
theorem claim_C5_counterexample :
    (union_filter (type_union.map exists_like_filter)
      [("type", ⟨"a", false, false, true⟩),
       ("type", ⟨"b", false, false, true⟩)]).length = 2 ∧
    ¬ (union_filter (type_union.map exists_like_filter)
      [("type", ⟨"a", false, false, true⟩),
       ("type", ⟨"b", false, false, true⟩)]).length = 1 := by
  refine ⟨by decide, by decide⟩

/-- Witness for C5 (amended) at a single `type:Stack` term. -/
theorem claim_C5_witness :
    type_union ≠ [] ∧ (∀ p ∈ type_union, p.param = "type") ∧
    (union_filter (type_union.map exists_like_filter)
        [("type", ⟨"Stack", false, false, true⟩)]).length =
      (getTerms [("type", ⟨"Stack", false, false, true⟩)] "type").length := by
  refine ⟨by decide, by decide, ?_⟩
  have h := (claim_C5_union_per_term "type" type_union (by decide) (by decide)
    [("type", ⟨"Stack", false, false, true⟩)]).1
  rw [h, List.length_map]

/-- Witness for C8 at `ext:cpp` vs `ext:.cpp`. -/
theorem claim_C8_witness :
    startswith "cpp" "." = false ∧
    simple_filter ext_filter [("ext", ⟨"cpp", false, false, true⟩)] =
      simple_filter ext_filter [("ext", ⟨".cpp", false, false, true⟩)] ∧
    ext_filter.formatter "cpp" = ["%.cpp"] := by
  refine ⟨by decide, ?_, ?_⟩
  · exact (claim_C8_ext_normalizes_dot "cpp" false false true (by decide)).1
  · have h := (claim_C8_ext_normalizes_dot "cpp" false false true (by decide)).2
    rw [h]
    decide

/-- Function `splitOnChar` never returns the empty list. -/
theorem splitOnChar_ne_nil (c : Char) : ∀ xs, splitOnChar c xs ≠ [] := by
  intro xs
  cases xs with
  | nil => simp [splitOnChar]
  | cons x xs =>
    simp only [splitOnChar]
    rcases splitOnChar c xs with _ | ⟨h, t⟩
    · simp
    · by_cases hxc : x = c <;> simp [hxc]

/-- Splitting a separator-free string returns it whole. -/
theorem splitOnChar_not_mem (c : Char) :
    ∀ (xs : List Char), c ∉ xs → splitOnChar c xs = [xs] := by
  intro xs
  induction xs with
  | nil => intro _; rfl
  | cons x xs ih =>
    intro h
    have hx : ¬x = c := by rintro rfl; exact h (by simp)
    have h' : c ∉ xs := fun hc => h (by simp [hc])
    simp [splitOnChar, ih h', hx]

/-- Splitting at the first separator after a separator-free head. -/
theorem splitOnChar_append (c : Char) :
    ∀ (xs ys : List Char), c ∉ xs →
      splitOnChar c (xs ++ c :: ys) = xs :: splitOnChar c ys := by
  intro xs
  induction xs with
  | nil =>
    intro ys _
    obtain ⟨h, t, heq⟩ := List.exists_cons_of_ne_nil (splitOnChar_ne_nil c ys)
    simp [splitOnChar, heq]
  | cons x xs ih =>
    intro ys hc
    have hx : ¬x = c := by rintro rfl; exact hc (by simp)
    have hc' : c ∉ xs := fun h => hc (by simp [h])
    rw [List.cons_append]
    conv_lhs => rw [splitOnChar]
    rw [ih ys hc']
    simp [hx]

/-- Value of `firstSome` on an all-`none` list is `none`. -/
theorem firstSome_eq_none {α : Type} :
    ∀ (l : List (Option α)), (∀ s ∈ l, s = none) → firstSome l = none := by
  intro l
  induction l with
  | nil => intro _; rfl
  | cons o os ih =>
    intro h
    have ho := h o (by simp)
    subst ho
    simp only [firstSome]
    exact ih (fun s hs => h s (by simp [hs]))

set_option maxHeartbeats 2000000 in
/-- C7.  `direct_result` tries its lookup steps in the specified order —
files; case-sensitive types; case-sensitive functions; qualname lookups when
the term contains `::`; case-insensitive types then functions — each step a
`LIMIT 2` query returning only when exactly one row comes back, and when no
step yields exactly one row the result is `None`. -/
theorem claim_C7_step_order (db : DB) (term : String) :
    direct_result_from db term =
      firstSome (direct_result_steps db (split_name_line term).1
        (split_name_line term).2) ∧
    ((∀ s ∈ direct_result_steps db (split_name_line term).1
        (split_name_line term).2, s = none) →
      direct_result_from db term = none) := by
  have hmain : direct_result_from db term =
      firstSome (direct_result_steps db (split_name_line term).1
        (split_name_line term).2) := by
    simp only [direct_result_from, direct_result_ci, direct_result_steps]
    by_cases hc : containsSub "::".data (split_name_line term).1.data = true <;>
      simp only [hc, if_true, if_false] <;>
      repeat' split
    all_goals simp_all [firstSome, stepOne]
  exact ⟨hmain, fun hall => hmain.trans (firstSome_eq_none _ hall)⟩

/-- Witness for C7: on an empty store every step returns nothing and
`direct_result` returns `None`. -/
theorem claim_C7_witness :
    (∀ s ∈ direct_result_steps ⟨[], [], []⟩ (split_name_line "x").1
        (split_name_line "x").2, s = none) ∧
    direct_result_from ⟨[], [], []⟩ "x" = none := by
  refine ⟨by decide, (claim_C7_step_order ⟨[], [], []⟩ "x").2 (by decide)⟩

/-- A string of the shape `pre ++ ":" ++ digits` with a nonempty digit run
does not end in a newline. -/
theorem getLast?_ne_newline (pre l : List Char) (hd : l.all Char.isDigit = true)
    (hne : l ≠ []) : (pre ++ ':' :: l).getLast? ≠ some '\n' := by
  rw [List.getLast?_append_of_ne_nil pre (by simp)]
  rw [List.getLast?_eq_getLast_of_ne_nil (List.cons_ne_nil ':' l)]
  rw [List.getLast_cons hne]
  intro h
  rw [Option.some.injEq] at h
  have hmem := List.getLast_mem hne
  have hdig := List.all_eq_true.mp hd _ hmem
  rw [h] at hdig
  simp at hdig

/-- C6 (amended).  For a query of exactly one bare text term: when the term
does not match the line-number pattern `^.*:[0-9]+$` (Python regex
semantics) and exactly one files row has a path equal to the term or
matching the SQL LIKE pattern `%/term` (LIKE being ASCII-case-insensitive
with `%`/`_` wildcards — for metacharacter-free terms this means ending in
`/` followed by the term up to ASCII case), `direct_result` returns that
path with line number 1; when the term has the form `name:digits`
(colon-free, newline-free name; nonempty digit run) and exactly one files
row matches the name part in the same sense, it returns that path with the
parsed line number. -/
theorem claim_C6_unique_file_match (db : DB) (p : String) :
    (∀ (term : String) (neg q cs : Bool),
      matches_line_number term = false → term ≠ "" →
      (db.files.filter (fun r => r.path == term || sqlLike ("%/" ++ term) r.path)).map
          (fun r => r.path) = [p] →
      direct_result db [("text", ⟨term, neg, q, cs⟩)] = some (some p, 1)) ∧
    (∀ (name ds : String) (neg q cs : Bool),
      ':' ∉ name.data → '\n' ∉ name.data → ds ≠ "" → ds.data.all Char.isDigit = true →
      (db.files.filter (fun r => r.path == name || sqlLike ("%/" ++ name) r.path)).map
          (fun r => r.path) = [p] →
      direct_result db [("text", ⟨name ++ ":" ++ ds, neg, q, cs⟩)] =
        some (some p, (natOfDigits ds.data : Int))) := by
  have hwrap : ∀ (t : Term), t.arg ≠ "" →
      direct_result db [("text", t)] = direct_result_from db t.arg := by
    intro t h
    simp [direct_result, single_term, h]
  constructor
  · intro term neg q cs hml hne hfilter
    have hsplit : split_name_line term = (term, -1) := by
      simp [split_name_line, hml]
    have hrows : fileRows db term = [p] := by
      rw [fileRows, hfilter]
      rfl
    rw [hwrap ⟨term, neg, q, cs⟩ hne]
    rw [direct_result_from, hsplit]
    simp only
    rw [hrows]
    norm_num
  · intro name ds neg q cs hname hnl hds hdig hfilter
    have hdsne : ds.data ≠ [] := by
      intro h
      exact hds (by cases ds; simp_all)
    have hdscol : ':' ∉ ds.data := by
      intro h
      have := List.all_eq_true.mp hdig _ h
      simp at this
    have hdata : (name ++ ":" ++ ds).data = name.data ++ ':' :: ds.data := by
      simp [String.data_append]
    have hterm_ne : (name ++ ":" ++ ds) ≠ "" := by
      intro h
      have hd : (name ++ ":" ++ ds).data = [] := by rw [h]
      rw [hdata] at hd
      simp at hd
    have hparts2 : splitOnChar ':' (name.data ++ ':' :: ds.data) = [name.data, ds.data] := by
      rw [splitOnChar_append ':' name.data ds.data hname,
        splitOnChar_not_mem ':' ds.data hdscol]
    have hlast : (name.data ++ ':' :: ds.data).getLast? ≠ some '\n' :=
      getLast?_ne_newline name.data ds.data hdig hdsne
    have hnomem : ¬ '\n' ∈ name.data ++ ':' :: ds.data := by
      intro h
      rcases List.mem_append.mp h with h | h
      · exact hnl h
      · rcases List.mem_cons.mp h with h | h
        · simp at h
        · have := List.all_eq_true.mp hdig _ h
          simp at this
    have hml : matches_line_number (name ++ ":" ++ ds) = true := by
      simp only [matches_line_number, hdata]
      rw [if_neg hlast]
      rw [hparts2]
      simp [hdsne, hdig, hnomem]
    have htakeds : ds.data.takeWhile Char.isDigit = ds.data :=
      List.takeWhile_eq_self_iff.mpr (fun a ha => List.all_eq_true.mp hdig a ha)
    have hsplit : split_name_line (name ++ ":" ++ ds) =
        (name, (natOfDigits ds.data : Int)) := by
      rw [split_name_line, if_pos hml, hdata, hparts2]
      simp [intOfDigits, htakeds]
    have hrows : fileRows db name = [p] := by
      rw [fileRows, hfilter]
      rfl
    rw [hwrap ⟨name ++ ":" ++ ds, neg, q, cs⟩ hterm_ne]
    rw [direct_result_from, hsplit]
    simp only
    rw [hrows]
    rw [if_pos (Int.natCast_nonneg _)]

/-- Witness for C6 (amended) at a store with the single file `foo`. -/
theorem claim_C6_witness :
    matches_line_number "foo" = false ∧ "foo" ≠ "" ∧
    ((DB.mk [⟨0, "foo"⟩] [] []).files.filter
        (fun r => r.path == "foo" || sqlLike ("%/" ++ "foo") r.path)).map
      (fun r => r.path) = ["foo"] ∧
    direct_result ⟨[⟨0, "foo"⟩], [], []⟩ [("text", ⟨"foo", false, false, true⟩)] =
      some (some "foo", 1) := by
  refine ⟨by decide, by decide, by decide, ?_⟩
  exact (claim_C6_unique_file_match ⟨[⟨0, "foo"⟩], [], []⟩ "foo").1 "foo"
    false false true (by decide) (by decide) (by decide)

/-- Membership through `insertByLen`. -/
theorem mem_insertByLen (x : List Char) :
    ∀ (l : List (List Char)) (a : List Char),
      a ∈ insertByLen x l ↔ a = x ∨ a ∈ l := by
  intro l
  induction l with
  | nil => intro a; simp [insertByLen]
  | cons y ys ih =>
    intro a
    simp only [insertByLen]
    split
    · simp [ih]
      tauto
    · simp [List.mem_cons]

/-- Membership through `sortByLenDesc`. -/
theorem mem_sortByLenDesc :
    ∀ (l : List (List Char)) (a : List Char),
      a ∈ sortByLenDesc l ↔ a ∈ l := by
  intro l
  induction l with
  | nil => intro a; simp [sortByLenDesc]
  | cons x xs ih =>
    intro a
    simp [sortByLenDesc, mem_insertByLen, ih]

/-- The generated filter-name alternation is sorted by descending length. -/
theorem sortedNamesList_sorted : isSortedDescBool sortedNamesList = true := by
  decide

/-- No registered filter name contains a colon. -/
theorem sortedNamesList_no_colon : ∀ n ∈ sortedNamesList, ':' ∉ n := by
  decide

/-- Every registered filter name is nonempty and does not start with `+`. -/
theorem filter_names_shape :
    ∀ n ∈ filter_names, n.data ≠ [] ∧ n.data.head? ≠ some '+' := by
  decide

/-- In a descending-length-sorted list, the head is at least as long as
every later entry. -/
theorem sorted_head_bound :
    ∀ (l : List (List Char)) (x : List Char),
      isSortedDescBool (x :: l) = true → ∀ y ∈ l, y.length ≤ x.length := by
  intro l
  induction l with
  | nil => intro x _ y hy; simp at hy
  | cons z zs ih =>
    intro x h y hy
    simp only [isSortedDescBool, Bool.and_eq_true] at h
    have hzx : z.length ≤ x.length := Nat.le_of_ble_eq_true h.1
    rcases List.mem_cons.mp hy with rfl | hy
    · exact hzx
    · exact le_trans (ih z h.2 y hy) hzx

/-- The tail of a descending-length-sorted list is sorted. -/
theorem sorted_tail (x : List Char) (l : List (List Char))
    (h : isSortedDescBool (x :: l) = true) : isSortedDescBool l = true := by
  cases l with
  | nil => rfl
  | cons z zs =>
    simp only [isSortedDescBool, Bool.and_eq_true] at h
    exact h.2

/-- The longest-first alternation matches exactly the registered name a
`kind:arg` input starts with: longer names would have to contain the colon,
shorter prefixes come later in the alternation. -/
theorem matchFilterName_registered :
    ∀ (names : List (List Char)) (kind x : List Char),
      kind ∈ names → (∀ n ∈ names, ':' ∉ n) → isSortedDescBool names = true →
      matchFilterName names (kind ++ ':' :: x) = some (kind, ':' :: x) := by
  intro names
  induction names with
  | nil => intro kind x h _ _; simp at h
  | cons n ns ih =>
    intro kind x hmem hcol hsort
    by_cases heq : n = kind
    · subst heq
      rw [matchFilterName]
      rw [if_pos (by
        rw [List.isPrefixOf_iff_prefix]
        exact List.prefix_append n (':' :: x))]
      rw [List.drop_left]
    · have hkind_ns : kind ∈ ns := by
        rcases List.mem_cons.mp hmem with rfl | h
        · exact absurd rfl heq
        · exact h
      have hlen : kind.length ≤ n.length :=
        sorted_head_bound ns n hsort kind hkind_ns
      have hnotpre : ¬ n.isPrefixOf (kind ++ ':' :: x) = true := by
        rw [List.isPrefixOf_iff_prefix]
        intro hpre
        rcases Nat.lt_or_ge kind.length n.length with hlt | hge
        · have h1 : (kind ++ [':']) <+: (kind ++ ':' :: x) := by
            refine ⟨x, ?_⟩
            simp
          have h2 : (kind ++ [':']) <+: n :=
            List.prefix_of_prefix_length_le h1 hpre (by simp; omega)
          have hcmem : ':' ∈ n := h2.subset (by simp)
          exact hcol n (by simp) hcmem
        · have hkpre : kind <+: kind ++ ':' :: x := List.prefix_append _ _
          have hnk : n <+: kind := List.prefix_of_prefix_length_le hpre hkpre hge
          exact heq (hnk.eq_of_length (le_antisymm hge hlen))
      rw [matchFilterName, if_neg hnotpre]
      exact ih kind x hkind_ns (fun m hm => hcol m (by simp [hm]))
        (sorted_tail n ns hsort)

/-- A nonempty run of non-space characters not opening with a quote parses
as bare text consuming the whole input. -/
theorem textRule_bare (x : String) (hne : x.data ≠ [])
    (hsp : ∀ c ∈ x.data, c ≠ ' ')
    (hq1 : x.data.head? ≠ some '"') (hq2 : x.data.head? ≠ some '\'') :
    textRule x.data = some (x, []) := by
  obtain ⟨c, cs, hx⟩ := List.exists_cons_of_ne_nil hne
  have hc1 : ¬ c = '"' := by rw [hx] at hq1; simpa using hq1
  have hc2 : ¬ c = '\'' := by rw [hx] at hq2; simpa using hq2
  have htake : (c :: cs).takeWhile (fun ch => ch != ' ') = c :: cs := by
    rw [← hx]
    apply List.takeWhile_eq_self_iff.mpr
    intro a ha
    simpa using hsp a ha
  have hdrop : (c :: cs).dropWhile (fun ch => ch != ' ') = [] := by
    rw [← hx]
    apply List.dropWhile_eq_nil_iff.mpr
    intro a ha
    simpa using hsp a ha
  rw [textRule, hx]
  simp only [quotedText, if_neg hc1, if_neg hc2, bareText, htake, hdrop,
    List.isEmpty_cons, wsDrop]
  simp [← hx]

/-- Rule `maybePlus` leaves input not starting with `+` alone. -/
theorem maybePlus_no_plus (c : Char) (l : List Char) (h : ¬ c = '+') :
    maybePlus (c :: l) = (false, c :: l) := by
  simp [maybePlus, h]

/-- The `filtered_term` rule on `kind:arg` with no plus. -/
theorem filteredTerm_kind (kind x : String) (hkind : kind ∈ filter_names)
    (hne : x.data ≠ []) (hsp : ∀ c ∈ x.data, c ≠ ' ')
    (hq1 : x.data.head? ≠ some '"') (hq2 : x.data.head? ≠ some '\'') :
    filteredTerm (kind.data ++ ':' :: x.data) =
      some ((kind, ⟨x, none, some false⟩), []) := by
  obtain ⟨hkne, hkplus⟩ := filter_names_shape kind hkind
  obtain ⟨k0, krest, hk⟩ := List.exists_cons_of_ne_nil hkne
  have hk0 : ¬ k0 = '+' := by
    rw [hk] at hkplus
    simpa using hkplus
  have hmp : maybePlus (kind.data ++ ':' :: x.data) =
      (false, kind.data ++ ':' :: x.data) := by
    rw [hk, List.cons_append, maybePlus_no_plus k0 _ hk0]
  have hmatch := matchFilterName_registered sortedNamesList kind.data x.data
    (by
      unfold sortedNamesList
      rw [mem_sortByLenDesc]
      exact List.mem_map_of_mem _ hkind)
    sortedNamesList_no_colon sortedNamesList_sorted
  have htext := textRule_bare x hne hsp hq1 hq2
  simp only [filteredTerm, hmp, hmatch, htext]

/-- The `filtered_term` rule on `+kind:arg`. -/
theorem filteredTerm_plus (kind x : String) (hkind : kind ∈ filter_names)
    (hne : x.data ≠ []) (hsp : ∀ c ∈ x.data, c ≠ ' ')
    (hq1 : x.data.head? ≠ some '"') (hq2 : x.data.head? ≠ some '\'') :
    filteredTerm ('+' :: (kind.data ++ ':' :: x.data)) =
      some ((kind, ⟨x, none, some true⟩), []) := by
  have hmp : maybePlus ('+' :: (kind.data ++ ':' :: x.data)) =
      (true, kind.data ++ ':' :: x.data) := by
    simp [maybePlus]
  have hmatch := matchFilterName_registered sortedNamesList kind.data x.data
    (by
      unfold sortedNamesList
      rw [mem_sortByLenDesc]
      exact List.mem_map_of_mem _ hkind)
    sortedNamesList_no_colon sortedNamesList_sorted
  have htext := textRule_bare x hne hsp hq1 hq2
  simp only [filteredTerm, hmp, hmatch, htext]

/-- Rule `positive_term` on `kind:arg`. -/
theorem positiveTerm_kind (kind x : String) (hkind : kind ∈ filter_names)
    (hne : x.data ≠ []) (hsp : ∀ c ∈ x.data, c ≠ ' ')
    (hq1 : x.data.head? ≠ some '"') (hq2 : x.data.head? ≠ some '\'') :
    positiveTerm (kind.data ++ ':' :: x.data) =
      some ((kind, ⟨x, none, some false⟩), []) := by
  rw [positiveTerm, filteredTerm_kind kind x hkind hne hsp hq1 hq2]

/-- Rule `positive_term` on `+kind:arg`. -/
theorem positiveTerm_plus (kind x : String) (hkind : kind ∈ filter_names)
    (hne : x.data ≠ []) (hsp : ∀ c ∈ x.data, c ≠ ' ')
    (hq1 : x.data.head? ≠ some '"') (hq2 : x.data.head? ≠ some '\'') :
    positiveTerm ('+' :: (kind.data ++ ':' :: x.data)) =
      some ((kind, ⟨x, none, some true⟩), []) := by
  rw [positiveTerm, filteredTerm_plus kind x hkind hne hsp hq1 hq2]

/-- Rule `not_term` wraps a successful `positive_term` after a `-`. -/
theorem notTerm_minus (l : List Char) (n : String) (sd : SubDict)
    (rest : List Char) (h : positiveTerm l = some ((n, sd), rest)) :
    notTerm ('-' :: l) = some ((n, { sd with negated := some true }), rest) := by
  simp [notTerm, h]

/-- Rule `termRule` never fires on empty input. -/
theorem termRule_nil (flag : Bool) : termRule flag [] = none := by
  cases flag <;> decide

/-- The `term*` loop stops on empty input. -/
theorem termsLoop_nil (flag : Bool) : ∀ fuel, termsLoop flag fuel [] = ([], []) := by
  intro fuel
  cases fuel with
  | zero => rfl
  | succ n => simp [termsLoop, termRule_nil]

/-- Any term produced by `termRule` carries the query-wide case flag. -/
theorem termRule_case_sensitive (flag : Bool) (cs : List Char) (n : String)
    (t : Term) (rest : List Char)
    (h : termRule flag cs = some ((n, t), rest)) : t.case_sensitive = flag := by
  rw [termRule] at h
  rcases hm : (match notTerm cs with
               | some r => some r
               | none => positiveTerm cs) with _ | ⟨⟨n', sd⟩, rest'⟩
  · rw [hm] at h
    simp at h
  · rw [hm] at h
    simp only [Option.some.injEq, Prod.mk.injEq] at h
    obtain ⟨⟨_, ht⟩, _⟩ := h
    rw [← ht]

/-- Every term produced by the `term*` loop carries the query-wide case
flag. -/
theorem termsLoop_case_sensitive (flag : Bool) :
    ∀ (fuel : Nat) (cs : List Char),
      ∀ p ∈ (termsLoop flag fuel cs).1, p.2.case_sensitive = flag := by
  intro fuel
  induction fuel with
  | zero => intro cs p hp; simp [termsLoop] at hp
  | succ n ih =>
    intro cs p hp
    rw [termsLoop] at hp
    rcases hm : termRule flag cs with _ | ⟨t, rest⟩
    · rw [hm] at hp
      simp at hp
    · rw [hm] at hp
      simp only [List.mem_cons] at hp
      rcases hp with rfl | hp
      · rcases p with ⟨n', tt⟩
        exact termRule_case_sensitive flag cs n' tt rest hm
      · exact ih rest p hp

/-- Every parsed term carries the query-wide case flag. -/
theorem parse_case_sensitive (flag : Bool) (s : String) (ts : Terms)
    (h : query_grammar_parse flag s = some ts) :
    ∀ p ∈ ts, p.2.case_sensitive = flag := by
  simp only [query_grammar_parse] at h
  split at h
  · obtain rfl := Option.some.injEq _ _ ▸ h
    intro p hp
    exact termsLoop_case_sensitive flag _ _ p (by
      simpa using hp)
  · exact absurd h (by simp)

/-- Parsing a whole query consisting of one term that starts with a
non-whitespace character and consumes the entire input. -/
theorem parse_one_term (flag : Bool) (c0 : Char) (l : List Char)
    (t : String × Term) (hc0 : (c0 == ' ' || c0 == '\t') = false)
    (hterm : termRule flag (c0 :: l) = some (t, []))
    (s : String) (hs : s.data = c0 :: l) :
    query_grammar_parse flag s = some [t] := by
  have hws : wsDrop (c0 :: l) = c0 :: l := by
    simp [wsDrop, List.dropWhile_cons, hc0]
  simp [query_grammar_parse, hs, hws, termsLoop, hterm, termsLoop_nil]

/-- C9.  For every registered filter kind and well-formed bare argument,
parsing `-kind:x` yields a term with `negated` true, `+kind:x` a term with
`qualified` true, and `-+kind:x` a term with both, kind and argument
preserved; and every parsed term's `case_sensitive` field equals the
query-wide flag. -/
theorem claim_C9_prefix_parsing (kind x : String) (flag : Bool)
    (hkind : kind ∈ filter_names) (hne : x ≠ "")
    (hsp : ∀ c ∈ x.data, c ≠ ' ')
    (hq1 : x.data.head? ≠ some '"') (hq2 : x.data.head? ≠ some '\'') :
    query_grammar_parse flag ("-" ++ kind ++ ":" ++ x) =
      some [(kind, ⟨x, true, false, flag⟩)] ∧
    query_grammar_parse flag ("+" ++ kind ++ ":" ++ x) =
      some [(kind, ⟨x, false, true, flag⟩)] ∧
    query_grammar_parse flag ("-+" ++ kind ++ ":" ++ x) =
      some [(kind, ⟨x, true, true, flag⟩)] ∧
    (∀ (s : String) (ts : Terms), query_grammar_parse flag s = some ts →
      ∀ p ∈ ts, p.2.case_sensitive = flag) := by
  have hne' : x.data ≠ [] := by
    intro h
    exact hne (by cases x; simp_all)
  have hdata : ∀ (pre : String) (c : Char), pre.data = [c] →
      (pre ++ kind ++ ":" ++ x).data = c :: (kind.data ++ ':' :: x.data) := by
    intro pre c hpre
    have hcolon : (":" : String).data = [':'] := rfl
    simp [String.data_append, hpre, hcolon]
  have hdata2 : ("-+" ++ kind ++ ":" ++ x).data =
      '-' :: '+' :: (kind.data ++ ':' :: x.data) := by
    have hmp : ("-+" : String).data = ['-', '+'] := rfl
    have hcolon : (":" : String).data = [':'] := rfl
    simp [String.data_append, hmp, hcolon]
  have hposk := positiveTerm_kind kind x hkind hne' hsp hq1 hq2
  have hposp := positiveTerm_plus kind x hkind hne' hsp hq1 hq2
  have hterm1 : termRule flag ('-' :: (kind.data ++ ':' :: x.data)) =
      some ((kind, ⟨x, true, false, flag⟩), []) := by
    have hnot := notTerm_minus _ _ _ _ hposk
    simp [termRule, hnot]
  have hterm2 : termRule flag ('+' :: (kind.data ++ ':' :: x.data)) =
      some ((kind, ⟨x, false, true, flag⟩), []) := by
    have hnot : notTerm ('+' :: (kind.data ++ ':' :: x.data)) = none := rfl
    simp [termRule, hnot, hposp]
  have hterm3 : termRule flag ('-' :: '+' :: (kind.data ++ ':' :: x.data)) =
      some ((kind, ⟨x, true, true, flag⟩), []) := by
    have hnot := notTerm_minus _ _ _ _ hposp
    simp [termRule, hnot]
  refine ⟨?_, ?_, ?_, parse_case_sensitive flag⟩
  · exact parse_one_term flag '-' _ _ (by decide) hterm1 _ (hdata "-" '-' rfl)
  · exact parse_one_term flag '+' _ _ (by decide) hterm2 _ (hdata "+" '+' rfl)
  · exact parse_one_term flag '-' _ _ (by decide) hterm3 _ hdata2

/-- Witness for C9 at `function` / `foo` with the case flag set. -/
theorem claim_C9_witness :
    ("function" ∈ filter_names ∧ ("foo" : String) ≠ "" ∧
      (∀ c ∈ ("foo" : String).data, c ≠ ' ') ∧
      ("foo" : String).data.head? ≠ some '"' ∧
      ("foo" : String).data.head? ≠ some '\'') ∧
    query_grammar_parse true "-function:foo" =
      some [("function", ⟨"foo", true, false, true⟩)] := by
  refine ⟨⟨by decide, by decide, by decide, by decide, by decide⟩, ?_⟩
  have h := (claim_C9_prefix_parsing "function" "foo" true (by decide) (by decide)
    (by decide) (by decide) (by decide)).1
  exact h

/-- Counterexample for C6 as stated: with files `x/abc` and `d/a_c` and the
term `a_c`, exactly one path literally ends in `/a_c`, yet `direct_result`
returns nothing — the SQL LIKE pattern `%/a_c` also matches `x/abc` because
`_` is a wildcard, so the lookup sees two rows. -/
theorem claim_C6_counterexample :
    ((DB.mk [⟨0, "x/abc"⟩, ⟨1, "d/a_c"⟩] [] []).files.filter
        (fun r => r.path == "a_c" || "/a_c".data.isSuffixOf r.path.data)).map
      (fun r => r.path) = ["d/a_c"] ∧
    direct_result ⟨[⟨0, "x/abc"⟩, ⟨1, "d/a_c"⟩], [], []⟩
      [("text", ⟨"a_c", false, false, true⟩)] = none := by
  refine ⟨by decide, by decide⟩

end DxrQuery
